import Mathlib

/-!
Verification development for the genomic-interval core of plastid:
`SegmentChain` coordinate translation, masking, relational predicates,
and the `BigWigReader.__getitem__` vector extraction.

The `SegmentChain` implementation itself is not part of the provided
sources (only its declaration file `c_roitools`-style `.pxd` is), so its
operations are modelled from the specification text; `BigWigReader` is
embedded from `plastid/readers/bigwig.pyx` directly.
-/

namespace Plastid

/-- Modelled from the spec: strand of a feature relative to the genomic
reference: forward, reverse, or unstranded. -/
inductive Strand where
  | forward
  | reverse
  | unstranded
deriving DecidableEq, Repr

/-- Modelled from the spec: flip of a strand used by `get_antisense`
(forward↔reverse; unstranded stays unstranded). -/
def flipStrand : Strand → Strand
  | Strand.forward => Strand.reverse
  | Strand.reverse => Strand.forward
  | Strand.unstranded => Strand.unstranded

/-- Modelled from the spec: `GenomicSegment`, an immutable half-open
interval `[start, stop)` on a named chromosome with a strand. -/
structure GenomicSegment where
  chrom : String
  start : Nat
  stop : Nat
  strand : Strand
deriving DecidableEq, Repr

/-- Modelled from the spec: `SegmentChain`, an ordered strand-consistent
collection of segments, an optional mask sub-chain and a free-form
attribute map.  The derived indexes (`position_hash`, `inverse_hash`,
`position_mask`, `length`) are modelled as functions of this record,
which is exactly the state they are rebuilt from on every query. -/
structure SegmentChain where
  chrom : String
  c_strand : Strand
  segments : List GenomicSegment
  mask_segments : List GenomicSegment
  attr : List (String × String)
deriving DecidableEq, Repr

/-- Genomic positions of one half-open segment, ascending. -/
def segPositions (s : GenomicSegment) : List Nat :=
  (List.range (s.stop - s.start)).map (· + s.start)

/-- Modelled from the spec: the `position_hash` rebuilt by `_update`:
walk `segments` in transcription order (ascending genomic coordinate if
strand is forward or unstranded; descending if reverse) and record the
genomic position of each consecutive chain-relative offset. -/
def position_hash (c : SegmentChain) : List Nat :=
  let walk := (c.segments.map segPositions).flatten
  if c.c_strand = Strand.reverse then walk.reverse else walk

/-- Whether genomic position `p` falls inside some mask segment. -/
def inMask (c : SegmentChain) (p : Nat) : Bool :=
  c.mask_segments.any (fun m => decide (m.start ≤ p) && decide (p < m.stop))

/-- Modelled from the spec: the `position_mask` vector: for each
chain-relative offset, true iff its genomic coordinate falls inside any
`mask_segments` interval. -/
def position_mask (c : SegmentChain) : List Bool :=
  (position_hash c).map (inMask c)

/-- Modelled from the spec: `get_length`, the count of chain-relative
offsets whose `position_mask` entry is false. -/
def get_length (c : SegmentChain) : Nat :=
  (position_mask c).countP (fun b => !b)

/-- Modelled from the spec: `get_position_list`, the ordered sequence of
genomic positions covered by the chain, excluding masked positions. -/
def get_position_list (c : SegmentChain) : List Nat :=
  (position_hash c).filter (fun p => !(inMask c p))

/-- Modelled from the spec: `get_position_set`, the set of genomic
positions covered by the chain, excluding masked positions. -/
def get_position_set (c : SegmentChain) : Finset Nat :=
  (get_position_list c).toFinset

/-- Total span length: the sum of the segment lengths, i.e. the length
of the `position_hash` index. -/
def span_length (c : SegmentChain) : Nat :=
  (c.segments.map (fun s => s.stop - s.start)).sum

instance {ε α : Type} [DecidableEq ε] [DecidableEq α] : DecidableEq (Except ε α) := fun x y =>
  match x, y with
  | Except.error a, Except.error b =>
    if h : a = b then isTrue (by rw [h]) else
      isFalse (fun hc => by cases hc; exact h rfl)
  | Except.error _, Except.ok _ => isFalse (fun hc => by cases hc)
  | Except.ok _, Except.error _ => isFalse (fun hc => by cases hc)
  | Except.ok a, Except.ok b =>
    if h : a = b then isTrue (by rw [h]) else
      isFalse (fun hc => by cases hc; exact h rfl)

/-- Modelled from the spec: the error kinds raised by the chain core. -/
inductive ChainError where
  | PositionOutOfRangeError
  | MaskOutOfBoundsError
  | StrandMismatchError
  | InvalidRangeError
deriving DecidableEq, Repr

/-- First index of genomic position `p` in a list of positions; the
lookup performed against the `inverse_hash`. -/
def idxOf? (p : Int) : List Nat → Option Nat
  | [] => none
  | q :: rest => if (q : Int) = p then some 0 else (idxOf? p rest).map (· + 1)

/-- Modelled from the spec: `c_get_genomic_coordinate` looks up
`position_hash` by index; fails with `PositionOutOfRangeError` if the
chain position is outside `[0, total span length)`.  Strandedness is
handled by index construction, not by a lookup-time transformation. -/
def c_get_genomic_coordinate (c : SegmentChain) (i : Int) (stranded : Bool) :
    Except ChainError Nat :=
  if 0 ≤ i ∧ i < ((position_hash c).length : Int) then
    Except.ok ((position_hash c).getD i.toNat 0)
  else
    Except.error ChainError.PositionOutOfRangeError

/-- Modelled from the spec: `c_get_segmentchain_coordinate` looks up the
`inverse_hash` (the exact inverse of `position_hash`); fails with
`PositionOutOfRangeError` if the genomic position is not covered by any
segment. -/
def c_get_segmentchain_coordinate (c : SegmentChain) (p : Int) (stranded : Bool) :
    Except ChainError Nat :=
  match idxOf? p (position_hash c) with
  | some i => Except.ok i
  | none => Except.error ChainError.PositionOutOfRangeError

/-- Group a sorted ascending list of genomic positions into maximal
half-open runs, accumulating a current run `[s, e]` (inclusive). -/
def groupRunsGo (s e : Nat) : List Nat → List (Nat × Nat)
  | [] => [(s, e + 1)]
  | q :: rest =>
    if q = e + 1 then groupRunsGo s q rest else (s, e + 1) :: groupRunsGo q q rest

/-- Group a sorted ascending list of genomic positions into maximal
half-open segments. -/
def groupRuns : List Nat → List (Nat × Nat)
  | [] => []
  | p :: rest => groupRunsGo p p rest

/-- Modelled from the spec: `c_get_subchain` returns a new chain
covering exactly the chain-relative interval `[chain_start, chain_end)`,
splitting segments at splice boundaries as needed; fails with
`PositionOutOfRangeError` if the requested interval exceeds
`[0, length)`. -/
def c_get_subchain (c : SegmentChain) (s e : Int) (stranded : Bool) :
    Except ChainError SegmentChain :=
  if 0 ≤ s ∧ s ≤ e ∧ e ≤ (get_length c : Int) then
    let ps := ((position_hash c).drop s.toNat).take (e.toNat - s.toNat)
    let runs := groupRuns (ps.insertionSort (· ≤ ·))
    Except.ok
      { chrom := c.chrom
        c_strand := c.c_strand
        segments := runs.map (fun ab => GenomicSegment.mk c.chrom ab.1 ab.2 c.c_strand)
        mask_segments := []
        attr := c.attr }
  else
    Except.error ChainError.PositionOutOfRangeError

/-- Modelled from the spec: the tri-state outcome of the relational
predicates: `true`, `false`, or `undefined` when strand information is
insufficient to decide. -/
inductive ExBool where
  | yes
  | no
  | undefined
deriving DecidableEq, Repr

/-- Half-open interval intersection test between two segment spans,
ignoring strand. -/
def spansIntersect (a b : GenomicSegment) : Bool :=
  decide (a.start < b.stop) && decide (b.start < a.stop)

/-- Strand compatibility used by `overlaps`: strands match, or either is
unstranded. -/
def strandsMatch (a b : Strand) : Bool :=
  a == b || a == Strand.unstranded || b == Strand.unstranded

/-- Opposite strands as used by `antisense_overlaps`: one forward and
one reverse (neither unstranded). -/
def strandsOpposite (a b : Strand) : Bool :=
  (a == Strand.forward && b == Strand.reverse) ||
    (a == Strand.reverse && b == Strand.forward)

/-- Modelled from the spec: `c_unstranded_overlaps` is true iff segment
spans intersect on the same chromosome, ignoring strand. -/
def c_unstranded_overlaps (c d : SegmentChain) : ExBool :=
  if (c.chrom == d.chrom) &&
      c.segments.any (fun sa => d.segments.any (fun sb => spansIntersect sa sb)) then
    ExBool.yes
  else
    ExBool.no

/-- Modelled from the spec: `c_overlaps` is true iff
`unstranded_overlaps` holds and strands match (or either is unstranded);
false otherwise. -/
def c_overlaps (c d : SegmentChain) : ExBool :=
  match c_unstranded_overlaps c d with
  | ExBool.yes => if strandsMatch c.c_strand d.c_strand then ExBool.yes else ExBool.no
  | _ => ExBool.no

/-- Modelled from the spec: `c_antisense_overlaps` is true iff spans
intersect on the same chromosome and strands are opposite. -/
def c_antisense_overlaps (c d : SegmentChain) : ExBool :=
  match c_unstranded_overlaps c d with
  | ExBool.yes => if strandsOpposite c.c_strand d.c_strand then ExBool.yes else ExBool.no
  | _ => ExBool.no

/-- Strand flip of one segment, keeping its coordinates. -/
def flipSeg (s : GenomicSegment) : GenomicSegment :=
  { s with strand := flipStrand s.strand }

/-- Modelled from the spec: `get_antisense` returns a new chain with
identical segments but strand flipped (forward↔reverse; unstranded stays
unstranded). -/
def get_antisense (c : SegmentChain) : SegmentChain :=
  { chrom := c.chrom
    c_strand := flipStrand c.c_strand
    segments := c.segments.map flipSeg
    mask_segments := c.mask_segments.map flipSeg
    attr := c.attr }

/-- Modelled from the spec: `set_mask` replaces `mask_segments`,
validating containment within `segments`; fails with
`MaskOutOfBoundsError` otherwise. -/
def set_mask (c : SegmentChain) (m : List GenomicSegment) :
    Except ChainError SegmentChain :=
  if m.all (fun ms => (segPositions ms).all
      (fun p => c.segments.any (fun s => decide (s.start ≤ p) && decide (p < s.stop)))) then
    Except.ok { c with mask_segments := m }
  else
    Except.error ChainError.MaskOutOfBoundsError

/-- Genomic position `p` is covered by one of the chain's segments. -/
def coveredBy (c : SegmentChain) (p : Nat) : Prop :=
  ∃ s ∈ c.segments, s.start ≤ p ∧ p < s.stop

instance (c : SegmentChain) (p : Nat) : Decidable (coveredBy c p) := by
  unfold coveredBy; infer_instance

/-- The concrete chain of the spec scenarios: chromosome `"chr1"`,
forward strand, segments `[(100,110), (200,215)]`, no mask. -/
def chainA : SegmentChain :=
  { chrom := "chr1"
    c_strand := Strand.forward
    segments := [⟨"chr1", 100, 110, Strand.forward⟩, ⟨"chr1", 200, 215, Strand.forward⟩]
    mask_segments := []
    attr := [] }

/-- The same chain placed on the reverse strand. -/
def chainArev : SegmentChain :=
  { chrom := "chr1"
    c_strand := Strand.reverse
    segments := [⟨"chr1", 100, 110, Strand.reverse⟩, ⟨"chr1", 200, 215, Strand.reverse⟩]
    mask_segments := []
    attr := [] }

/-- The chain returned by `get_subchain(5, 20)` on `chainA`. -/
def chainAsub : SegmentChain :=
  { chrom := "chr1"
    c_strand := Strand.forward
    segments := [⟨"chr1", 105, 110, Strand.forward⟩, ⟨"chr1", 200, 210, Strand.forward⟩]
    mask_segments := []
    attr := [] }

/-- Chain `A` of the overlap scenario: single forward segment `(100,110)`. -/
def chainA7 : SegmentChain :=
  { chrom := "chr1"
    c_strand := Strand.forward
    segments := [⟨"chr1", 100, 110, Strand.forward⟩]
    mask_segments := []
    attr := [] }

/-- Chain `B` of the overlap scenario: single reverse segment `(100,110)`. -/
def chainB7 : SegmentChain :=
  { chrom := "chr1"
    c_strand := Strand.reverse
    segments := [⟨"chr1", 100, 110, Strand.reverse⟩]
    mask_segments := []
    attr := [] }

/-- Well-formedness invariant of a `SegmentChain` as stated by the data
model: every segment is a valid half-open interval, and the segments are
sorted ascending and pairwise non-overlapping. -/
def WF (c : SegmentChain) : Prop :=
  (∀ s ∈ c.segments, s.start ≤ s.stop) ∧
    c.segments.Pairwise (fun a b => a.stop ≤ b.start)

instance (c : SegmentChain) : Decidable (WF c) := by
  unfold WF; exact instDecidableAnd

lemma mem_segPositions {s : GenomicSegment} {p : Nat} :
    p ∈ segPositions s ↔ s.start ≤ p ∧ p < s.stop := by
  simp only [segPositions, List.mem_map, List.mem_range]
  constructor
  · rintro ⟨k, hk, rfl⟩; omega
  · rintro ⟨h1, h2⟩; exact ⟨p - s.start, by omega, by omega⟩

lemma nodup_segPositions (s : GenomicSegment) : (segPositions s).Nodup :=
  (List.nodup_range _).map (fun a b h => by omega)

lemma length_position_hash (c : SegmentChain) :
    (position_hash c).length = span_length c := by
  have hwalk : ((c.segments.map segPositions).flatten).length = span_length c := by
    rw [List.length_flatten, List.map_map]
    unfold span_length
    refine congrArg List.sum (List.map_congr_left ?_)
    intro s _
    simp [segPositions]
  unfold position_hash
  by_cases h : c.c_strand = Strand.reverse <;> simp [h, hwalk]

lemma mem_position_hash {c : SegmentChain} {p : Nat} :
    p ∈ position_hash c ↔ coveredBy c p := by
  have hwalk : p ∈ (c.segments.map segPositions).flatten ↔ coveredBy c p := by
    simp only [List.mem_flatten, List.mem_map, coveredBy]
    constructor
    · rintro ⟨l, ⟨s, hs, rfl⟩, hp⟩
      exact ⟨s, hs, mem_segPositions.1 hp⟩
    · rintro ⟨s, hs, hp⟩
      exact ⟨segPositions s, ⟨s, hs, rfl⟩, mem_segPositions.2 hp⟩
  unfold position_hash
  by_cases h : c.c_strand = Strand.reverse <;> simp [h, hwalk]

lemma nodup_position_hash {c : SegmentChain} (hwf : WF c) :
    (position_hash c).Nodup := by
  have hwalk : ((c.segments.map segPositions).flatten).Nodup := by
    rw [List.nodup_flatten]
    refine ⟨?_, ?_⟩
    · rintro l hl
      obtain ⟨s, _, rfl⟩ := List.mem_map.1 hl
      exact nodup_segPositions s
    · rw [List.pairwise_map]
      refine hwf.2.imp ?_
      intro a b hab
      intro x hxa hxb
      have h1 := mem_segPositions.1 hxa
      have h2 := mem_segPositions.1 hxb
      omega
  unfold position_hash
  by_cases h : c.c_strand = Strand.reverse <;> simp [h, hwalk]

lemma idxOf?_eq_some {p : Int} :
    ∀ {l : List Nat} {i : Nat}, idxOf? p l = some i →
      i < l.length ∧ ((l.getD i 0 : Nat) : Int) = p := by
  intro l
  induction l with
  | nil => intro i h; simp [idxOf?] at h
  | cons q rest ih =>
    intro i h
    by_cases hq : (q : Int) = p
    · simp [idxOf?, hq] at h
      subst h
      simpa using hq
    · simp only [idxOf?, if_neg hq] at h
      cases hrest : idxOf? p rest with
      | none => rw [hrest] at h; simp at h
      | some j =>
        rw [hrest] at h
        have h2 : j + 1 = i := by simpa using h
        obtain ⟨hlt, hval⟩ := ih hrest
        subst h2
        constructor
        · simp only [List.length_cons]; omega
        · simp only [List.getD_cons_succ]; exact hval

lemma idxOf?_of_mem {q : Nat} :
    ∀ {l : List Nat}, q ∈ l → ∃ i, idxOf? (q : Int) l = some i := by
  intro l
  induction l with
  | nil => intro h; simp at h
  | cons q' rest ih =>
    intro h
    by_cases hq : (q' : Int) = (q : Int)
    · exact ⟨0, by simp [idxOf?, hq]⟩
    · have hq' : q' ≠ q := fun hc => hq (by rw [hc])
      have hmem : q ∈ rest := by
        rcases List.mem_cons.1 h with h1 | h1
        · exact absurd h1.symm hq'
        · exact h1
      obtain ⟨j, hj⟩ := ih hmem
      exact ⟨j + 1, by simp [idxOf?, hq, hj]⟩

lemma idxOf?_eq_none_iff {p : Int} :
    ∀ {l : List Nat}, idxOf? p l = none ↔ ∀ q ∈ l, (q : Int) ≠ p := by
  intro l
  induction l with
  | nil => simp [idxOf?]
  | cons q' rest ih =>
    by_cases hq : (q' : Int) = p
    · simp [idxOf?, hq]
    · simp [idxOf?, hq, Option.map_eq_none', ih]

lemma idxOf?_getD {l : List Nat} (hnd : l.Nodup) :
    ∀ {i : Nat}, i < l.length → idxOf? ((l.getD i 0 : Nat) : Int) l = some i := by
  induction l with
  | nil => intro i h; simp at h
  | cons q rest ih =>
    intro i h
    match i with
    | 0 => simp [idxOf?]
    | Nat.succ j =>
      have hj : j < rest.length := by simpa using h
      have hget : (q :: rest).getD (j + 1) 0 = rest.getD j 0 := by simp
      have hmem : rest.getD j 0 ∈ rest := by
        rw [List.getD_eq_getElem rest 0 hj]
        exact List.getElem_mem hj
      have hne : (q : Int) ≠ ((rest.getD j 0 : Nat) : Int) := by
        have : q ≠ rest.getD j 0 := fun hc => (List.nodup_cons.1 hnd).1 (hc ▸ hmem)
        exact fun hc => this (by exact_mod_cast hc)
      rw [hget]
      simp only [idxOf?, if_neg hne]
      rw [ih (List.nodup_cons.1 hnd).2 hj]
      rfl

/-- Chain with the single forward segment `(100,110)`, mask scenario. -/
def chain6 : SegmentChain :=
  { chrom := "chr1"
    c_strand := Strand.forward
    segments := [⟨"chr1", 100, 110, Strand.forward⟩]
    mask_segments := []
    attr := [] }

/-- `chain6` after masking `[(100,105)]`. -/
def chain6m : SegmentChain :=
  { chrom := "chr1"
    c_strand := Strand.forward
    segments := [⟨"chr1", 100, 110, Strand.forward⟩]
    mask_segments := [⟨"chr1", 100, 105, Strand.forward⟩]
    attr := [] }

lemma flipStrand_flipStrand (s : Strand) : flipStrand (flipStrand s) = s := by
  cases s <;> rfl

lemma flipSeg_flipSeg (s : GenomicSegment) : flipSeg (flipSeg s) = s := by
  cases s
  simp [flipSeg, flipStrand_flipStrand]

/-- C1: for every chain (satisfying the data-model invariants) and every
genomic position covered by one of its segments, converting to a chain
coordinate and back returns the same genomic position; conversely every
chain-relative offset in range round-trips through the genomic
coordinate. -/
theorem coordinate_roundtrip (c : SegmentChain) (hwf : WF c) (st : Bool) :
    (∀ p : Nat, coveredBy c p →
      ∃ i : Nat, c_get_segmentchain_coordinate c (p : Int) st = Except.ok i ∧
        c_get_genomic_coordinate c (i : Int) st = Except.ok p) ∧
    (∀ i : Nat, i < span_length c →
      ∃ p : Nat, c_get_genomic_coordinate c (i : Int) st = Except.ok p ∧
        c_get_segmentchain_coordinate c (p : Int) st = Except.ok i) := by
  constructor
  · intro p hp
    have hmem : p ∈ position_hash c := mem_position_hash.2 hp
    obtain ⟨i, hi⟩ := idxOf?_of_mem hmem
    obtain ⟨hlt, hval⟩ := idxOf?_eq_some hi
    refine ⟨i, ?_, ?_⟩
    · unfold c_get_segmentchain_coordinate
      rw [hi]
    · unfold c_get_genomic_coordinate
      rw [if_pos ⟨by omega, by exact_mod_cast hlt⟩]
      have ht : ((i : Int)).toNat = i := by omega
      rw [ht]
      have hp' : (position_hash c).getD i 0 = p := by exact_mod_cast hval
      rw [hp']
  · intro i hi
    have hlen : i < (position_hash c).length := by
      rw [length_position_hash]; exact hi
    refine ⟨(position_hash c).getD i 0, ?_, ?_⟩
    · unfold c_get_genomic_coordinate
      rw [if_pos ⟨by omega, by exact_mod_cast hlen⟩]
      have ht : ((i : Int)).toNat = i := by omega
      rw [ht]
    · unfold c_get_segmentchain_coordinate
      rw [idxOf?_getD (nodup_position_hash hwf) hlen]

theorem coordinate_roundtrip_witness :
    ∃ i : Nat, c_get_segmentchain_coordinate chainA ((205 : Nat) : Int) true = Except.ok i ∧
      c_get_genomic_coordinate chainA ((i : Nat) : Int) true = Except.ok 205 :=
  (coordinate_roundtrip chainA (by decide) true).1 205 (by decide)

/-- C2: the chain on `"chr1"`, forward strand, segments
`[(100,110),(200,215)]` has length 25, maps genomic 205 to chain
offset 15 and back, and `get_subchain(5,20)` yields exactly the
segments `(105,110)` and `(200,210)`. -/
theorem chainA_concrete_queries :
    get_length chainA = 25 ∧
    c_get_segmentchain_coordinate chainA 205 true = Except.ok 15 ∧
    c_get_genomic_coordinate chainA 15 true = Except.ok 205 ∧
    c_get_subchain chainA 5 20 true = Except.ok chainAsub ∧
    chainAsub.segments =
      [⟨"chr1", 105, 110, Strand.forward⟩, ⟨"chr1", 200, 210, Strand.forward⟩] :=
  ⟨by decide, by decide, by decide, by decide, by decide⟩

/-- C3: on the reverse strand the position-hash walk runs in descending
genomic coordinate order, so chain offset 0 maps to the 3'-most genomic
base 214; the whole walk is the descending enumeration of the covered
positions. -/
theorem reverse_strand_walk :
    c_get_genomic_coordinate chainArev 0 true = Except.ok 214 ∧
    position_hash chainArev =
      [214, 213, 212, 211, 210, 209, 208, 207, 206, 205, 204, 203, 202, 201, 200,
        109, 108, 107, 106, 105, 104, 103, 102, 101, 100] :=
  ⟨by decide, by decide⟩

/-- C5: `c_get_genomic_coordinate` fails with `PositionOutOfRangeError`
iff the chain position lies outside `[0, total span length)`, and
`c_get_segmentchain_coordinate` fails with `PositionOutOfRangeError` iff
the genomic position is covered by no segment; in every other case each
returns a coordinate. -/
theorem coordinate_conversion_errors (c : SegmentChain) (st : Bool) :
    (∀ i : Int,
      c_get_genomic_coordinate c i st = Except.error ChainError.PositionOutOfRangeError ↔
        ¬(0 ≤ i ∧ i < (span_length c : Int))) ∧
    (∀ i : Int, 0 ≤ i → i < (span_length c : Int) →
      ∃ p : Nat, c_get_genomic_coordinate c i st = Except.ok p) ∧
    (∀ p : Int,
      c_get_segmentchain_coordinate c p st = Except.error ChainError.PositionOutOfRangeError ↔
        ¬∃ s ∈ c.segments, (s.start : Int) ≤ p ∧ p < (s.stop : Int)) ∧
    (∀ p : Int, (∃ s ∈ c.segments, (s.start : Int) ≤ p ∧ p < (s.stop : Int)) →
      ∃ i : Nat, c_get_segmentchain_coordinate c p st = Except.ok i) := by
  have hlen := length_position_hash c
  have hcov : ∀ p : Int, (∃ q : Nat, (q : Int) = p ∧ q ∈ position_hash c) ↔
      (∃ s ∈ c.segments, (s.start : Int) ≤ p ∧ p < (s.stop : Int)) := by
    intro p
    constructor
    · rintro ⟨q, rfl, hq⟩
      obtain ⟨s, hs, h1, h2⟩ := mem_position_hash.1 hq
      exact ⟨s, hs, by omega, by omega⟩
    · rintro ⟨s, hs, h1, h2⟩
      refine ⟨p.toNat, by omega, ?_⟩
      exact mem_position_hash.2 ⟨s, hs, by omega, by omega⟩
  refine ⟨?_, ?_, ?_, ?_⟩
  · intro i
    unfold c_get_genomic_coordinate
    by_cases h : 0 ≤ i ∧ i < ((position_hash c).length : Int)
    · rw [if_pos h]
      refine iff_of_false (fun hc => Except.noConfusion hc) (fun hc => hc ⟨h.1, ?_⟩)
      have h2 := h.2
      rw [hlen] at h2
      exact h2
    · rw [if_neg h]
      refine iff_of_true rfl (fun hc => h ⟨hc.1, ?_⟩)
      rw [hlen]
      exact hc.2
  · intro i h1 h2
    have h2' : i < ((position_hash c).length : Int) := by rw [hlen]; exact h2
    refine ⟨(position_hash c).getD i.toNat 0, ?_⟩
    unfold c_get_genomic_coordinate
    rw [if_pos ⟨h1, h2'⟩]
  · intro p
    unfold c_get_segmentchain_coordinate
    cases hidx : idxOf? p (position_hash c) with
    | none =>
      refine iff_of_true rfl ?_
      intro hex
      obtain ⟨q, hq, hqmem⟩ := (hcov p).2 hex
      exact (idxOf?_eq_none_iff.1 hidx q hqmem) hq
    | some i =>
      refine iff_of_false (fun hc => Except.noConfusion hc) ?_
      intro hne
      obtain ⟨hlt, hval⟩ := idxOf?_eq_some hidx
      have hqmem : (position_hash c).getD i 0 ∈ position_hash c := by
        rw [List.getD_eq_getElem _ _ hlt]
        exact List.getElem_mem hlt
      exact hne ((hcov p).1 ⟨_, hval, hqmem⟩)
  · intro p hex
    obtain ⟨q, rfl, hqmem⟩ := (hcov p).2 hex
    obtain ⟨i, hi⟩ := idxOf?_of_mem hqmem
    refine ⟨i, ?_⟩
    unfold c_get_segmentchain_coordinate
    rw [hi]

theorem coordinate_conversion_errors_witness :
    c_get_genomic_coordinate chainA (-1) true =
      Except.error ChainError.PositionOutOfRangeError :=
  ((coordinate_conversion_errors chainA true).1 (-1)).mpr (by decide)

/-- C6: after a successful `set_mask(m)`, no genomic position lying in a
mask segment appears in `get_position_set`. -/
theorem mask_excludes_positions (c : SegmentChain) (m : List GenomicSegment)
    (c' : SegmentChain) (p : Nat) (hok : set_mask c m = Except.ok c')
    (hp : ∃ ms ∈ m, ms.start ≤ p ∧ p < ms.stop) :
    p ∉ get_position_set c' := by
  unfold set_mask at hok
  split at hok
  · cases hok
    intro hmem
    rw [get_position_set, List.mem_toFinset, get_position_list, List.mem_filter] at hmem
    obtain ⟨-, hmask⟩ := hmem
    have hin : inMask { c with mask_segments := m } p = true := by
      obtain ⟨ms, hms, h1, h2⟩ := hp
      exact List.any_eq_true.2 ⟨ms, hms, by simp [h1, h2]⟩
    simp [hin] at hmask
  · cases hok

theorem mask_excludes_positions_witness :
    get_length chain6 = 10 ∧ get_length chain6m = 5 ∧
      get_position_set chain6m = ({105, 106, 107, 108, 109} : Finset Nat) ∧
      (100 : Nat) ∉ get_position_set chain6m :=
  ⟨by decide, by decide, by decide,
    mask_excludes_positions chain6 [⟨"chr1", 100, 105, Strand.forward⟩] chain6m 100
      (by decide) (by decide)⟩

/-- C7: the forward chain `(100,110)` and the reverse chain `(100,110)`
do not `overlap`, do `antisense_overlap`, and do `unstranded_overlap`;
in general `overlaps` is `yes` iff the spans intersect ignoring strand
and the strands match (or either is unstranded), `no` whenever the spans
do not intersect, and never `undefined`. -/
theorem overlap_predicates :
    c_overlaps chainA7 chainB7 = ExBool.no ∧
    c_antisense_overlaps chainA7 chainB7 = ExBool.yes ∧
    c_unstranded_overlaps chainA7 chainB7 = ExBool.yes ∧
    (∀ c d : SegmentChain,
      (c_overlaps c d = ExBool.yes ↔
        c_unstranded_overlaps c d = ExBool.yes ∧
          strandsMatch c.c_strand d.c_strand = true) ∧
      (c_unstranded_overlaps c d = ExBool.no → c_overlaps c d = ExBool.no) ∧
      c_overlaps c d ≠ ExBool.undefined) := by
  refine ⟨by decide, by decide, by decide, ?_⟩
  intro c d
  have hu : c_unstranded_overlaps c d = ExBool.yes ∨
      c_unstranded_overlaps c d = ExBool.no := by
    unfold c_unstranded_overlaps
    split <;> simp
  refine ⟨?_, ?_, ?_⟩
  · rcases hu with h | h
    · by_cases hm : strandsMatch c.c_strand d.c_strand = true <;>
        simp [c_overlaps, h, hm]
    · simp [c_overlaps, h]
  · intro h
    simp [c_overlaps, h]
  · rcases hu with h | h
    · by_cases hm : strandsMatch c.c_strand d.c_strand = true <;>
        simp [c_overlaps, h, hm]
    · simp [c_overlaps, h]

/-- Ordering on segments used by `sort` and `add_segments`: ascending
genomic start, ties broken by end. -/
def segLe (a b : GenomicSegment) : Prop :=
  a.start < b.start ∨ (a.start = b.start ∧ a.stop ≤ b.stop)

instance : DecidableRel segLe := fun a b => by
  unfold segLe; infer_instance

instance : IsTotal GenomicSegment segLe :=
  ⟨fun a b => by unfold segLe; omega⟩

instance : IsTrans GenomicSegment segLe :=
  ⟨fun a b c h1 h2 => by unfold segLe at h1 h2 ⊢; omega⟩

/-- Coalesce a start-sorted run of segments, accumulating the current
span `cur` and merging any following segment that overlaps or abuts
it. -/
def mergeAdjacentGo (cur : GenomicSegment) : List GenomicSegment → List GenomicSegment
  | [] => [cur]
  | b :: rest =>
    if b.start ≤ cur.stop then
      mergeAdjacentGo { cur with stop := max cur.stop b.stop } rest
    else
      cur :: mergeAdjacentGo b rest

/-- Coalesce overlapping or adjacent segments of a start-sorted list
into single spans. -/
def mergeAdjacent : List GenomicSegment → List GenomicSegment
  | [] => []
  | a :: rest => mergeAdjacentGo a rest

/-- Modelled from the spec: `add_segments` merges new segments into the
existing set, coalescing overlapping/adjacent segments into single
spans, re-sorting ascending by start; fails with `StrandMismatchError`
if an incoming segment's strand conflicts with the chain's strand. -/
def add_segments (c : SegmentChain) (new : List GenomicSegment) :
    Except ChainError SegmentChain :=
  if new.all (fun s => s.strand == c.c_strand) then
    Except.ok { c with segments := mergeAdjacent ((c.segments ++ new).insertionSort segLe) }
  else
    Except.error ChainError.StrandMismatchError

/-- Modelled from the spec: `sort` canonicalizes segment order
(ascending genomic start, ties broken by end); idempotent. -/
def sort (c : SegmentChain) : SegmentChain :=
  { c with segments := c.segments.insertionSort segLe }

/-- A structural operation on a chain: add segments, set the mask, or
sort. -/
inductive ChainOp where
  | addSegs (new : List GenomicSegment)
  | setMask (m : List GenomicSegment)
  | sortOp
deriving DecidableEq, Repr

/-- The segments fed to `add_segments` passed `GenomicSegment`
construction, so they are valid half-open intervals. -/
def opValid : ChainOp → Prop
  | ChainOp.addSegs new => ∀ s ∈ new, s.start ≤ s.stop
  | ChainOp.setMask _ => True
  | ChainOp.sortOp => True

instance (op : ChainOp) : Decidable (opValid op) := by
  cases op <;> (unfold opValid; infer_instance)

/-- One structural operation applied to a chain. -/
def applyOp (c : SegmentChain) : ChainOp → Except ChainError SegmentChain
  | ChainOp.addSegs new => add_segments c new
  | ChainOp.setMask m => set_mask c m
  | ChainOp.sortOp => Except.ok (sort c)

/-- A sequence of structural operations applied left to right, stopping
at the first failure. -/
def applyOps (c : SegmentChain) : List ChainOp → Except ChainError SegmentChain
  | [] => Except.ok c
  | op :: rest =>
    match applyOp c op with
    | Except.ok c1 => applyOps c1 rest
    | Except.error e => Except.error e

lemma mergeAdjacentGo_start_lb (v : Nat) :
    ∀ (l : List GenomicSegment) (cur : GenomicSegment), v ≤ cur.start →
      (∀ s ∈ l, v ≤ s.start) → ∀ s ∈ mergeAdjacentGo cur l, v ≤ s.start := by
  intro l
  induction l with
  | nil =>
    intro cur hcur _ s hs
    simp only [mergeAdjacentGo, List.mem_singleton] at hs
    exact hs ▸ hcur
  | cons b rest ih =>
    intro cur hcur hl s hs
    rw [mergeAdjacentGo] at hs
    split at hs
    · exact ih { cur with stop := max cur.stop b.stop } hcur
        (fun t ht => hl t (List.mem_cons_of_mem _ ht)) s hs
    · rcases List.mem_cons.1 hs with rfl | hs'
      · exact hcur
      · exact ih b (hl b (List.mem_cons_self _ _))
          (fun t ht => hl t (List.mem_cons_of_mem _ ht)) s hs'

lemma mergeAdjacentGo_ok :
    ∀ (l : List GenomicSegment) (cur : GenomicSegment), cur.start ≤ cur.stop →
      (∀ s ∈ l, s.start ≤ s.stop) → (∀ s ∈ l, cur.start ≤ s.start) →
      l.Pairwise (fun a b => a.start ≤ b.start) →
      (∀ s ∈ mergeAdjacentGo cur l, s.start ≤ s.stop) ∧
        (mergeAdjacentGo cur l).Pairwise (fun a b => a.stop ≤ b.start) := by
  intro l
  induction l with
  | nil =>
    intro cur hcur _ _ _
    refine ⟨?_, ?_⟩
    · intro s hs
      simp only [mergeAdjacentGo, List.mem_singleton] at hs
      exact hs ▸ hcur
    · exact List.pairwise_singleton _ _
  | cons b rest ih =>
    intro cur hcur hval hlb hpair
    obtain ⟨hb_rest, hrest_pair⟩ := List.pairwise_cons.1 hpair
    have hbval : b.start ≤ b.stop := hval b (List.mem_cons_self _ _)
    have hrest_val : ∀ s ∈ rest, s.start ≤ s.stop :=
      fun s hs => hval s (List.mem_cons_of_mem _ hs)
    rw [mergeAdjacentGo]
    split
    · rename_i hmerge
      refine ih { cur with stop := max cur.stop b.stop } (by simp; omega)
        hrest_val ?_ hrest_pair
      intro s hs
      exact hlb s (List.mem_cons_of_mem _ hs)
    · rename_i hkeep
      have hgo := ih b hbval hrest_val hb_rest hrest_pair
      refine ⟨?_, ?_⟩
      · intro s hs
        rcases List.mem_cons.1 hs with rfl | hs'
        · exact hcur
        · exact hgo.1 s hs'
      · rw [List.pairwise_cons]
        refine ⟨?_, hgo.2⟩
        intro s hs
        have hlbs : b.start ≤ s.start :=
          mergeAdjacentGo_start_lb b.start rest b le_rfl hb_rest s hs
        omega

lemma mergeAdjacent_ok {l : List GenomicSegment}
    (hval : ∀ s ∈ l, s.start ≤ s.stop)
    (hpair : l.Pairwise (fun a b => a.start ≤ b.start)) :
    (∀ s ∈ mergeAdjacent l, s.start ≤ s.stop) ∧
      (mergeAdjacent l).Pairwise (fun a b => a.stop ≤ b.start) := by
  cases l with
  | nil =>
    refine ⟨?_, ?_⟩
    · intro s hs
      simp [mergeAdjacent] at hs
    · exact List.Pairwise.nil
  | cons a rest =>
    obtain ⟨ha_rest, hrest_pair⟩ := List.pairwise_cons.1 hpair
    exact mergeAdjacentGo_ok rest a (hval a (List.mem_cons_self _ _))
      (fun s hs => hval s (List.mem_cons_of_mem _ hs)) ha_rest hrest_pair

lemma sorted_pairwise_start {l : List GenomicSegment} (h : l.Sorted segLe) :
    l.Pairwise (fun a b => a.start ≤ b.start) :=
  h.imp (fun hab => by unfold segLe at hab; omega)

lemma WF_sorted {c : SegmentChain} (hwf : WF c) : c.segments.Sorted segLe := by
  refine hwf.2.imp_of_mem ?_
  intro a b ha hb hab
  have hva := hwf.1 a ha
  have hvb := hwf.1 b hb
  unfold segLe
  omega

lemma add_segments_WF {c : SegmentChain} {new : List GenomicSegment}
    (hwf : WF c) (hv : ∀ s ∈ new, s.start ≤ s.stop) {c' : SegmentChain}
    (h : add_segments c new = Except.ok c') : WF c' := by
  unfold add_segments at h
  split at h
  · cases h
    have hmem : ∀ s ∈ (c.segments ++ new).insertionSort segLe, s.start ≤ s.stop := by
      intro s hs
      rw [List.mem_insertionSort] at hs
      rcases List.mem_append.1 hs with h' | h'
      · exact hwf.1 s h'
      · exact hv s h'
    have hsorted : ((c.segments ++ new).insertionSort segLe).Pairwise
        (fun a b => a.start ≤ b.start) :=
      sorted_pairwise_start (List.sorted_insertionSort segLe _)
    exact mergeAdjacent_ok hmem hsorted
  · cases h

lemma set_mask_WF {c : SegmentChain} {m : List GenomicSegment}
    {c' : SegmentChain} (hwf : WF c) (h : set_mask c m = Except.ok c') : WF c' := by
  unfold set_mask at h
  split at h
  · cases h; exact hwf
  · cases h

lemma sort_WF {c : SegmentChain} (hwf : WF c) : WF (sort c) := by
  unfold sort
  rw [List.Sorted.insertionSort_eq (WF_sorted hwf)]
  exact hwf

lemma applyOps_WF :
    ∀ (ops : List ChainOp) (c c' : SegmentChain), WF c →
      (∀ op ∈ ops, opValid op) → applyOps c ops = Except.ok c' → WF c' := by
  intro ops
  induction ops with
  | nil =>
    intro c c' hwf _ h
    cases h
    exact hwf
  | cons op rest ih =>
    intro c c' hwf hv h
    rw [applyOps] at h
    cases hop : applyOp c op with
    | error e => rw [hop] at h; cases h
    | ok c1 =>
      rw [hop] at h
      have hwf1 : WF c1 := by
        cases op with
        | addSegs new =>
          exact add_segments_WF hwf (hv _ (List.mem_cons_self _ _)) hop
        | setMask m => exact set_mask_WF hwf hop
        | sortOp =>
          cases hop
          exact sort_WF hwf
      exact ih c1 c' hwf1 (fun o ho => hv o (List.mem_cons_of_mem _ ho)) h

lemma get_length_eq_card {c : SegmentChain} (hwf : WF c) :
    get_length c = (get_position_set c).card := by
  rw [get_position_set, get_position_list,
    List.toFinset_card_of_nodup ((nodup_position_hash hwf).filter _)]
  rw [get_length, position_mask, List.countP_map, List.countP_eq_length_filter]
  rfl

/-- C4: after any successful sequence of structural operations (add
segments, set mask, sort) starting from a well-formed chain, the length
equals the cardinality of `get_position_set`, and both equal the number
of chain-relative offsets whose `position_mask` entry is false. -/
theorem length_consistency_ops (c c' : SegmentChain) (ops : List ChainOp)
    (hwf : WF c) (hv : ∀ op ∈ ops, opValid op)
    (h : applyOps c ops = Except.ok c') :
    get_length c' = (get_position_set c').card ∧
    get_length c' = ((position_mask c').filter (fun b => b = false)).length := by
  have hwf' := applyOps_WF ops c c' hwf hv h
  refine ⟨get_length_eq_card hwf', ?_⟩
  rw [get_length, List.countP_eq_length_filter]
  congr 1
  refine List.filter_congr ?_
  intro b _
  cases b <;> simp

/-- The empty chain the witness operations start from. -/
def chainC4start : SegmentChain :=
  { chrom := "chr1"
    c_strand := Strand.forward
    segments := []
    mask_segments := []
    attr := [] }

/-- The witness operation sequence: add two segments, mask one
interval, then sort. -/
def opsC4 : List ChainOp :=
  [ChainOp.addSegs [⟨"chr1", 100, 110, Strand.forward⟩, ⟨"chr1", 200, 215, Strand.forward⟩],
    ChainOp.setMask [⟨"chr1", 100, 105, Strand.forward⟩],
    ChainOp.sortOp]

/-- The chain produced by `opsC4` from `chainC4start`. -/
def chainC4res : SegmentChain :=
  { chrom := "chr1"
    c_strand := Strand.forward
    segments := [⟨"chr1", 100, 110, Strand.forward⟩, ⟨"chr1", 200, 215, Strand.forward⟩]
    mask_segments := [⟨"chr1", 100, 105, Strand.forward⟩]
    attr := [] }

theorem length_consistency_ops_witness :
    get_length chainC4res = (get_position_set chainC4res).card ∧
    get_length chainC4res =
      ((position_mask chainC4res).filter (fun b => b = false)).length :=
  length_consistency_ops chainC4start chainC4res opsC4 (by decide) (by decide) (by decide)

/-- A forward chain far downstream of `chainA7`, sharing no positions
with it. -/
def chainFar : SegmentChain :=
  { chrom := "chr1"
    c_strand := Strand.forward
    segments := [⟨"chr1", 500, 510, Strand.forward⟩]
    mask_segments := []
    attr := [] }

theorem overlap_predicates_witness :
    c_overlaps chainA7 chainFar = ExBool.no :=
  (overlap_predicates.2.2.2 chainA7 chainFar).2.1 (by decide)

/-- C8: `get_antisense` is an involution, and a single application keeps
every segment's coordinates while flipping the strand of the chain and
of each segment (forward↔reverse, unstranded fixed). -/
theorem antisense_involution (c : SegmentChain) :
    get_antisense (get_antisense c) = c ∧
    (get_antisense c).c_strand = flipStrand c.c_strand ∧
    (get_antisense c).segments = c.segments.map flipSeg ∧
    (∀ s : GenomicSegment, (flipSeg s).start = s.start ∧ (flipSeg s).stop = s.stop ∧
      (flipSeg s).strand = flipStrand s.strand) := by
  refine ⟨?_, rfl, rfl, fun s => ⟨rfl, rfl, rfl⟩⟩
  obtain ⟨ch, st, segs, msk, at_⟩ := c
  have hcomp : flipSeg ∘ flipSeg = id := funext flipSeg_flipSeg
  simp [get_antisense, flipStrand_flipStrand, List.map_map, hcomp]

/-! ## BigWigReader (`plastid/readers/bigwig.pyx`) -/

/-- One interval of `BigWig` data: half-open `[start, stop)` carrying a
value, as returned by `bigWigIntervalQuery`. -/
structure BWInterval (V : Type) where
  start : Nat
  stop : Nat
  val : V
deriving DecidableEq, Repr

/-- `bigWigIntervalQuery`: the file's intervals for one chromosome that
intersect the query range `[qstart, qstop)`, clipped to it. -/
def intervalQuery {V : Type} (ivs : List (BWInterval V)) (qstart qstop : Nat) :
    List (BWInterval V) :=
  (ivs.filter (fun iv => decide (iv.start < qstop) && decide (qstart < iv.stop))).map
    (fun iv => ⟨max iv.start qstart, min iv.stop qstop, iv.val⟩)

/-- The slice assignment `view[a:b] = x` of `__getitem__`, walking the
vector with the current index `i`. -/
def writeRange {V : Type} (a b : Nat) (x : V) : Nat → List V → List V
  | _, [] => []
  | i, y :: rest => (if a ≤ i ∧ i < b then x else y) :: writeRange a b x (i + 1) rest

/-- `BigWigReader.__getitem__(roi)`: build a vector of length
`roi.end - roi.start` filled with `fill`; if the chromosome is absent
from the file, issue a `DataWarning` (the `Bool` component) and return
the fill vector unchanged; otherwise overwrite each queried interval's
slice with its value.  The 5'→3' reversal for reverse-strand regions is
commented out in the source, so the strand of `roi` is never
consulted. -/
def bigwig_getitem {V : Type} (file : List (String × List (BWInterval V)))
    (fill : V) (roi : GenomicSegment) : Bool × List V :=
  let counts := List.replicate (roi.stop - roi.start) fill
  match file.lookup roi.chrom with
  | none => (true, counts)
  | some ivs =>
    (false,
      (intervalQuery ivs roi.start roi.stop).foldl
        (fun acc iv => writeRange (iv.start - roi.start) (iv.stop - roi.start) iv.val 0 acc)
        counts)

/-- The value the populated vector holds for genomic position `p`: the
last queried interval covering `p` wins, else the fill value. -/
def pointValue {V : Type} (ivs : List (BWInterval V)) (fill : V) (p : Nat) : V :=
  ivs.foldl (fun acc iv => if iv.start ≤ p ∧ p < iv.stop then iv.val else acc) fill

lemma length_writeRange {V : Type} (a b : Nat) (x : V) :
    ∀ (i : Nat) (v : List V), (writeRange a b x i v).length = v.length := by
  intro i v
  induction v generalizing i with
  | nil => rfl
  | cons y rest ih => simp [writeRange, ih]

lemma getD_writeRange {V : Type} (a b : Nat) (x d : V) :
    ∀ (v : List V) (i j : Nat), j < v.length →
      (writeRange a b x i v).getD j d =
        if a ≤ i + j ∧ i + j < b then x else v.getD j d := by
  intro v
  induction v with
  | nil => intro i j h; simp at h
  | cons y rest ih =>
    intro i j h
    match j with
    | 0 => simp [writeRange]
    | Nat.succ k =>
      have hk : k < rest.length := by simpa using h
      rw [writeRange]
      simp only [List.getD_cons_succ]
      rw [ih (i + 1) k hk]
      have hadd : i + 1 + k = i + (k + 1) := by omega
      rw [hadd]

lemma length_foldl_writeRange {V : Type} (off : Nat) :
    ∀ (ivs : List (BWInterval V)) (v : List V),
      (ivs.foldl (fun acc iv =>
        writeRange (iv.start - off) (iv.stop - off) iv.val 0 acc) v).length = v.length := by
  intro ivs
  induction ivs with
  | nil => intro v; rfl
  | cons iv rest ih =>
    intro v
    rw [List.foldl_cons, ih, length_writeRange]

lemma getD_foldl_writeRange {V : Type} (off : Nat) (d : V) :
    ∀ (ivs : List (BWInterval V)) (v : List V) (i : Nat), i < v.length →
      (ivs.foldl (fun acc iv =>
          writeRange (iv.start - off) (iv.stop - off) iv.val 0 acc) v).getD i d =
        ivs.foldl (fun acc iv => if iv.start ≤ off + i ∧ off + i < iv.stop then iv.val else acc)
          (v.getD i d) := by
  intro ivs
  induction ivs with
  | nil => intro v i _; rfl
  | cons iv rest ih =>
    intro v i hi
    rw [List.foldl_cons, List.foldl_cons]
    rw [ih _ i (by rw [length_writeRange]; exact hi)]
    rw [getD_writeRange _ _ _ _ v 0 i hi]
    have hiff : (iv.start - off ≤ 0 + i ∧ 0 + i < iv.stop - off) ↔
        (iv.start ≤ off + i ∧ off + i < iv.stop) := by omega
    rw [if_congr hiff rfl rfl]

/-- The concrete file of the order scenario: two adjacent intervals with
distinct values on `"chr1"`. -/
def bwfile9 : List (String × List (BWInterval Int)) :=
  [("chr1", [⟨10, 12, 7⟩, ⟨12, 14, 9⟩])]

/-- A reverse-strand region of interest covering both intervals. -/
def roi9 : GenomicSegment := ⟨"chr1", 10, 14, Strand.reverse⟩

/-- C9: `__getitem__` returns a vector of length `end - start` whose
entry at index `i` is the value at genomic coordinate `start + i` —
ascending genomic order — and the result never depends on the strand of
`roi`: no 5'→3' reversal is applied for reverse-strand regions.  On the
concrete reverse-strand region the vector is `[7,7,9,9]`, not the
reversed `[9,9,7,7]` the docstring would promise. -/
theorem bigwig_getitem_genomic_order {V : Type}
    (file : List (String × List (BWInterval V))) (fill : V) (roi : GenomicSegment) :
    (bigwig_getitem file fill roi).2.length = roi.stop - roi.start ∧
    (∀ ivs, file.lookup roi.chrom = some ivs →
      ∀ i : Nat, i < roi.stop - roi.start →
        (bigwig_getitem file fill roi).2.getD i fill =
          pointValue (intervalQuery ivs roi.start roi.stop) fill (roi.start + i)) ∧
    (∀ st : Strand,
      bigwig_getitem file fill { roi with strand := st } = bigwig_getitem file fill roi) ∧
    bigwig_getitem bwfile9 (0 : Int) roi9 = (false, [7, 7, 9, 9]) ∧
    (bigwig_getitem bwfile9 (0 : Int) roi9).2 ≠ [9, 9, 7, 7] := by
  refine ⟨?_, ?_, fun st => rfl, by decide, by decide⟩
  · unfold bigwig_getitem
    cases file.lookup roi.chrom with
    | none => simp
    | some ivs =>
      simp only []
      rw [length_foldl_writeRange, List.length_replicate]
  · intro ivs hlook i hi
    unfold bigwig_getitem
    rw [hlook]
    simp only []
    rw [getD_foldl_writeRange roi.start fill _ _ i
      (by rw [List.length_replicate]; exact hi)]
    have hrep : (List.replicate (roi.stop - roi.start) fill).getD i fill = fill := by
      rw [List.getD_eq_getElem?_getD, List.getElem?_replicate]
      split <;> rfl
    rw [hrep]
    rfl

theorem bigwig_getitem_genomic_order_witness :
    (bigwig_getitem bwfile9 (0 : Int) roi9).2.getD 0 0 =
      pointValue (intervalQuery [⟨10, 12, 7⟩, ⟨12, 14, 9⟩] roi9.start roi9.stop) 0
        (roi9.start + 0) :=
  (bigwig_getitem_genomic_order bwfile9 0 roi9).2.1 [⟨10, 12, 7⟩, ⟨12, 14, 9⟩]
    (by decide) 0 (by decide)

/-- C10: when the chromosome of `roi` is absent from the file,
`__getitem__` does not fail: it issues a `DataWarning` and returns a
vector of length `roi.end - roi.start` every entry of which is the fill
value. -/
theorem bigwig_getitem_missing_chrom {V : Type}
    (file : List (String × List (BWInterval V))) (fill : V) (roi : GenomicSegment)
    (h : ∀ e ∈ file, e.1 ≠ roi.chrom) :
    bigwig_getitem file fill roi = (true, List.replicate (roi.stop - roi.start) fill) ∧
    (bigwig_getitem file fill roi).2.length = roi.stop - roi.start ∧
    ∀ x ∈ (bigwig_getitem file fill roi).2, x = fill := by
  have hlook : file.lookup roi.chrom = none := by
    induction file with
    | nil => rfl
    | cons e rest ih =>
      rw [List.lookup]
      have hne : (roi.chrom == e.1) = false := by
        have h1 := h e (List.mem_cons_self _ _)
        exact beq_eq_false_iff_ne.2 (fun hc => h1 hc.symm)
      rw [hne]
      exact ih (fun e' he' => h e' (List.mem_cons_of_mem _ he'))
  have hres : bigwig_getitem file fill roi =
      (true, List.replicate (roi.stop - roi.start) fill) := by
    unfold bigwig_getitem
    rw [hlook]
  refine ⟨hres, ?_, ?_⟩
  · rw [hres, List.length_replicate]
  · intro x hx
    rw [hres] at hx
    exact List.eq_of_mem_replicate hx

theorem bigwig_getitem_missing_chrom_witness :
    bigwig_getitem bwfile9 (0 : Int) ⟨"chr2", 10, 14, Strand.forward⟩ =
      (true, [0, 0, 0, 0]) :=
  (bigwig_getitem_missing_chrom bwfile9 0 ⟨"chr2", 10, 14, Strand.forward⟩
    (by decide)).1

end Plastid
